import Mathlib

/-!
Verification development for the `kindle-export` vocabulary CLI
(`src/vocab-cli.ts`, current version at the top of the file).

The pipeline has two commands:

* `ingest <words.json>`: reads raw Kindle lookup words, normalises each to a
  lemma (`chooseLemma`), classifies it into a difficulty tier (`decideTier`),
  deduplicates against stop words / known words / previously seen lemmas, and
  writes the surviving `CleanEntry` records.
* `export --tier N [--batch K]`: scans the existing deck files of the tier,
  builds the set of already exported first-column tokens, filters and sorts the
  cleaned entries, slices a window based on the next batch id, enriches each
  word from WordNet, renders tab-separated rows and writes a new deck file.

The shallow embedding below translates those functions directly.  External
collaborators (the `wink-lemmatizer` reduction functions, the WordNet lookup,
the part-of-speech computation built on WordNet plus the `compromise` tagger,
and the JS float formatting used for the Zipf tag) are parameters of the
model, exactly as they are opaque libraries for the TypeScript code.  JS
numbers that carry frequency scores are modelled as rationals; lookup counts
are naturals.  File-system state is explicit: the decks directory is a list
of `DeckFile` values and the cleaned-words artifact a list of `CleanEntry`
values.  JS string primitives (`toLowerCase`, `trim`, `split` on a one-char
separator, `replace(/…/g)`, `slice(0, n)`) are modelled structurally over the
character list of the string so that every definition evaluates.
-/

/- ───────────────── JS string primitives ───────────────── -/

/-- JS `s.toLowerCase()`, modelled character-wise. -/
def jsToLower (s : String) : String :=
  String.mk (s.data.map Char.toLower)

/-- JS `s.trim()`: strip leading and trailing whitespace. -/
def jsTrim (s : String) : String :=
  String.mk (((s.data.dropWhile Char.isWhitespace).reverse.dropWhile
    Char.isWhitespace).reverse)

/-- Worker for `splitOnChar`: `acc` holds the current field reversed. -/
def splitCharAux (c : Char) : List Char → List Char → List String
  | [], acc => [String.mk acc.reverse]
  | ch :: rest, acc =>
    if ch = c then String.mk acc.reverse :: splitCharAux c rest []
    else splitCharAux c rest (ch :: acc)

/-- JS `s.split(sep)` for a one-character separator (the source only splits
on `'\t'`, `' '` and `';'`).  Splitting the empty string yields `[""]`,
matching JS. -/
def splitOnChar (c : Char) (s : String) : List String :=
  splitCharAux c s.data []

/-- JS `s.slice(0, n)` (the source truncates examples to 120). -/
def jsTake (n : Nat) (s : String) : String :=
  String.mk (s.data.take n)

/-- JS `s.replace(/a/g, b)` for one-character pattern and replacement
(the source replaces underscores by spaces in synonyms). -/
def replaceChar (a b : Char) (s : String) : String :=
  String.mk (s.data.map fun ch => if ch = a then b else ch)

/-- JS `array.join(sep)`. -/
def joinSep (sep : String) : List String → String
  | [] => ""
  | [x] => x
  | x :: xs => x ++ sep ++ joinSep sep xs

/- ───────────────── Data model ───────────────── -/

/-- A raw word as produced by the upstream Kindle extraction
(`interface RawWord`).  The `word` field is optional here because the ingest
code guards against it being absent (`!r.word`); `ex` models the optional
`example` field and `count` the optional lookup count. -/
structure RawWord where
  word : Option String
  ex : Option String
  count : Option Nat
deriving DecidableEq, Repr

/-- Value stored in the CEFR map: a proficiency level and an optional part
of speech. -/
structure CefrData where
  level : String
  pos : Option String
deriving DecidableEq, Repr

/-- A cleaned entry (`interface CleanEntry`): the raw fields plus the chosen
lemma (`lem` here, since `lemma` is reserved), CEFR level, part of speech,
Zipf frequency score and tier. -/
structure CleanEntry where
  word : String
  ex : Option String
  count : Option Nat
  lem : String
  level : String
  pos : String
  zipf : Rat
  tier : Nat
deriving DecidableEq, Repr

/- ───────────────── Lemma chooser ───────────────── -/

/-- JS truthiness of a numeric map lookup: `zipf[v]` is truthy exactly when
the key is present and its value is nonzero. -/
def jsTruthyNum (o : Option Rat) : Bool :=
  match o with
  | some q => q != 0
  | none => false

/-- Direct translation of `chooseLemma`.  The candidate array is
`[lemmatizer.noun(w), lemmatizer.verb(w), lemmatizer.adjective(w), w]`
filtered by `(v) => v && v !== w`; the first candidate for which
`cefr[v] || zipf[v]` is truthy is returned, otherwise `variants[0] ?? w`.
The three lemmatizer reduction functions are external collaborators and are
passed as parameters `ln`, `lv`, `la`. -/
def chooseLemma (ln lv la : String → String)
    (cefr : String → Option CefrData) (zipf : String → Option Rat)
    (w : String) : String :=
  let variants := [ln w, lv w, la w, w].filter (fun v => v != "" && v != w)
  match variants.find? (fun v => (cefr v).isSome || jsTruthyNum (zipf v)) with
  | some v => v
  | none => variants.headD w

/-- Modelled from the spec's words, for comparison with `chooseLemma` (claim
C4): "generate candidate forms by applying noun/verb/adjective reduction
rules to the word (and include the original word as a fallback candidate).
Return the first candidate (in a fixed preference order) that appears as a
key in either reference map; if none match, return the first non-trivial
candidate, or the original word if no candidates exist." -/
def chooseLemmaSpec (ln lv la : String → String)
    (cefr : String → Option CefrData) (zipf : String → Option Rat)
    (w : String) : String :=
  let candidates := [ln w, lv w, la w, w]
  match candidates.find? (fun v => (cefr v).isSome || (zipf v).isSome) with
  | some v => v
  | none =>
    match candidates.filter (fun v => v != "" && v != w) with
    | [] => w
    | v :: _ => v

/- ───────────────── Tier logic ───────────────── -/

/-- The CEFR level ranking object (`levelRank` in the source): ranks 0–5 for
A1..C2, undefined for any other string. -/
def levelRank : String → Option Nat
  | "A1" => some 0
  | "A2" => some 1
  | "B1" => some 2
  | "B2" => some 3
  | "C1" => some 4
  | "C2" => some 5
  | _ => none

/-- JS `a >= b` on possibly-undefined numbers: the comparison is `false`
whenever either side is undefined. -/
def jsGECmp (a b : Option Nat) : Bool :=
  match a, b with
  | some x, some y => decide (y ≤ x)
  | _, _ => false

/-- Direct translation of `decideTier`: tier 1 when
`(levelRank[level] >= levelRank.B2 && zipf < 4) || (count ?? 0) >= 5`,
else tier 2 when `zipf < 5`, else tier 3. -/
def decideTier (level : String) (zipf : Rat) (count : Option Nat) : Nat :=
  let cnt := count.getD 0
  if (jsGECmp (levelRank level) (levelRank "B2") && decide (zipf < 4))
      || decide (5 ≤ cnt) then 1
  else if zipf < 5 then 2
  else 3

/- ───────────────── WordNet model and enrichment ───────────────── -/

/-- A WordNet lookup result (`interface WNResult`): the sense's
part-of-speech letter, its definition text, its synonyms, and the optional
sense frequency count from `meta.freqCnt`. -/
structure WNResult where
  pos : String
  defn : String
  synonyms : List String
  freqCnt : Option Nat
deriving DecidableEq, Repr

/-- Outcome of one call to the external WordNet `lookupAsync`: either a
result list (possibly empty) or a thrown error, which the source catches. -/
inductive LookupOutcome where
  | ok (results : List WNResult)
  | err
deriving DecidableEq, Repr

/-- Translation of `mapWordNetPosToStandard`. -/
def mapWordNetPosToStandard (w : String) : String :=
  match jsToLower w with
  | "n" => "noun"
  | "v" => "verb"
  | "a" => "adjective"
  | "s" => "adjective"
  | "r" => "adverb"
  | _ => ""

/-- Stable insertion: `x` is placed before the first element it is not
strictly after.  With `le y x && !(le x y)` as "y strictly before x" this
reproduces a JS stable `sort` with comparator ordering `le`. -/
def sInsert (le : α → α → Bool) (x : α) : List α → List α
  | [] => [x]
  | y :: ys => if le y x && !(le x y) then y :: sInsert le x ys else x :: y :: ys

/-- Stable sort by the (total) boolean comparison `le`, modelling JS
`Array.prototype.sort`, which is stable. -/
def sSort (le : α → α → Bool) : List α → List α
  | [] => []
  | x :: xs => sInsert le x (sSort le xs)

/-- Comparator of the WordNet sense sort in `pickBestSense`:
`(a, b) => (b.meta?.freqCnt ?? 0) - (a.meta?.freqCnt ?? 0)`, i.e. descending
sense frequency. -/
def senseBefore (a b : WNResult) : Bool :=
  decide (b.freqCnt.getD 0 ≤ a.freqCnt.getD 0)

/-- Translation of `pickBestSense`: prefer senses with the desired
part-of-speech, sort by descending frequency, and when a noun was asked for
but the best sense is not a noun, look for a noun sense in the sorted list. -/
def pickBestSense (results : List WNResult) (desiredPos : String) :
    Option WNResult :=
  if results.isEmpty then none
  else
    let samePos := if desiredPos != "" then
        results.filter (fun r => mapWordNetPosToStandard r.pos == desiredPos)
      else []
    let sorted := sSort senseBefore (if samePos.isEmpty then results else samePos)
    let best := sorted.head?
    match best with
    | none => none
    | some b =>
      if desiredPos == "noun" && (mapWordNetPosToStandard b.pos != "noun") then
        match sorted.find? (fun r => mapWordNetPosToStandard r.pos == "noun") with
        | some ns => some ns
        | none => some b
      else some b

/-- Enrichment data attached to a deck row: a definition and a synonym
list. -/
structure Enrichment where
  defn : String
  syn : List String
deriving DecidableEq, Repr

/-- First-occurrence deduplication in input order, as performed by
`[...new Set(raw)]` (JS `Set` iterates in insertion order). -/
def dedupKeepFirst (l : List String) : List String :=
  l.foldl (fun acc s => if acc.contains s then acc else acc ++ [s]) []

/-- Translation of the enrichment block inside `exportTier`'s lookup task:
a failed lookup (caught error) or an empty result list produce the empty
definition and no synonyms; otherwise the definition is the first
semicolon-separated clause of the best sense, trimmed, and the synonyms are
the deduplicated, underscore-stripped, lowercased synonyms of all senses
sharing the best sense's part of speech, minus the lemma itself, capped at
three. -/
def enrich (outcome : LookupOutcome) (lem pos : String) : Enrichment :=
  match outcome with
  | .err => ⟨"", []⟩
  | .ok results =>
    match pickBestSense results pos with
    | none => ⟨"", []⟩
    | some best =>
      -- JS `Array.prototype.sort` mutates: when `pickBestSense` sorted the
      -- `results` array itself (no same-POS senses were found), the synonym
      -- scan below iterates the frequency-sorted array.
      let samePos := if pos != "" then
          results.filter (fun r => mapWordNetPosToStandard r.pos == pos)
        else []
      let resultsAfter := if samePos.isEmpty then sSort senseBefore results
        else results
      let d := jsTrim ((splitOnChar ';' best.defn).headD "")
      let synSetPos := mapWordNetPosToStandard best.pos
      let raw := (resultsAfter.filter
        (fun r => mapWordNetPosToStandard r.pos == synSetPos)).flatMap
        (fun r => r.synonyms)
      let uniq := dedupKeepFirst
        (raw.map (fun s => jsToLower (jsTrim (replaceChar '_' ' ' s))))
      ⟨d, (uniq.filter (fun s => s != "" && s != jsToLower lem)).take 3⟩

/- ───────────────── Export: deck files, batch ids, windowing ───────────── -/

/-- One deck file `deck_t{tier}_{id}.tsv` in the decks directory, with its
content as the list of lines obtained by the source's split of the file text
on `\r?\n` (the writer joins rows with `\n`, so the two views agree).  A
directory entry whose name does not carry a positive numeric id is
represented with `id = 0` (the source maps such names to `0` and filters
them out, and `Math.max(...ids) + 1` over the remaining positive ids equals
`ids.foldl max 0 + 1`). -/
structure DeckFile where
  tier : Nat
  id : Nat
  lines : List String
deriving DecidableEq, Repr

/-- Translation of `nextBatchId`: collect the positive numeric ids of the
tier's `deck_t{tier}_*.tsv` files; return 1 when there are none, and the
maximum id plus one otherwise. -/
def nextBatchId (tier : Nat) (dir : List DeckFile) : Nat :=
  let ids := ((dir.filter (fun f => f.tier == tier)).map (fun f => f.id)).filter
    (fun i => decide (0 < i))
  if ids.length == 0 then 1 else ids.foldl max 0 + 1

/-- The token a deck line contributes to the exclusion set: the first
tab-separated column's first space-separated word, lowercased; an empty
first column contributes nothing (`if (!firstCol) continue`). -/
def lineToken (line : String) : Option String :=
  let firstCol := (splitOnChar '\t' line).headD ""
  if firstCol == "" then none
  else some (jsToLower ((splitOnChar ' ' firstCol).headD ""))

/-- The `exported` set built by `exportTier`: every token of every line of
every existing `deck_t{tier}_*.tsv` file. -/
def exportedSet (tier : Nat) (dir : List DeckFile) : List String :=
  ((dir.filter (fun f => f.tier == tier)).flatMap (fun f => f.lines)).filterMap
    lineToken

/-- Comparator of `exportTier`'s word sort: descending `count ?? 0`, ties
broken by descending `zipf`. -/
def entryBefore (a b : CleanEntry) : Bool :=
  decide (b.count.getD 0 < a.count.getD 0) ||
    (decide (a.count.getD 0 = b.count.getD 0) && decide (b.zipf ≤ a.zipf))

/-- The filtered and sorted word list of `exportTier`: entries of the tier
whose lemma is not in the exclusion set, sorted by the comparator. -/
def wordsForTier (tier : Nat) (cleaned : List CleanEntry)
    (dir : List DeckFile) : List CleanEntry :=
  sSort entryBefore (cleaned.filter
    (fun e => e.tier == tier && !((exportedSet tier dir).contains e.lem)))

/-- The window `wordsForTier.slice(startIndex, endIndex)` with
`startIndex = (currentBatchNum - 1) * batchSize`. -/
def selectBatch (tier batchSize : Nat) (cleaned : List CleanEntry)
    (dir : List DeckFile) : List CleanEntry :=
  ((wordsForTier tier cleaned dir).drop
    ((nextBatchId tier dir - 1) * batchSize)).take batchSize

/-- External parameters of `exportTier`: the WordNet lookup (`lookupAsync`
plus the `try`/`catch`) and the float formatting `zipf.toFixed(2)` used in
the tag column. -/
structure ExportEnv where
  oracle : String → LookupOutcome
  showZipf : Rat → String

/-- Translation of the deck row construction in `exportTier` (the
`deckLines` map): seven tab-joined fields — word, part of speech (`'N/A'`
when empty), an empty placeholder, the definition, the example truncated to
120 characters, the comma-joined synonyms, and the tier/level/Zipf tag. -/
def renderLine (showZipf : Rat → String) (tier : Nat) (e : CleanEntry)
    (d : Enrichment) : String :=
  joinSep "\t" [
    e.word,
    (if e.pos == "" then "N/A" else e.pos),
    "",
    d.defn,
    jsTake 120 (e.ex.getD ""),
    joinSep ", " d.syn,
    "Tier" ++ toString tier ++ "·" ++ e.level ++ "·Zipf " ++ showZipf e.zipf]

/-- Translation of `exportTier`: abort without writing when the cleaned
artifact is empty or the window is empty; otherwise write the file
`deck_t{tier}_{nextBatchId}.tsv` whose lines are the rendered, enriched
window entries.  The per-call `wnCache` memoises the external lookup by
lemma; since the lookup oracle is a pure function of the lemma here, and the
cleaned artifact produced by `ingest` never repeats a lemma, the cache is
semantics-preserving and is therefore not modelled. -/
def exportTier (env : ExportEnv) (tier batchSize : Nat)
    (cleaned : List CleanEntry) (dir : List DeckFile) : Option DeckFile :=
  if cleaned.isEmpty then none
  else
    let window := selectBatch tier batchSize cleaned dir
    if window.isEmpty then none
    else some ⟨tier, nextBatchId tier dir,
      window.map (fun e =>
        renderLine env.showZipf tier e (enrich (env.oracle e.lem) e.lem e.pos))⟩

/-- One export invocation as a transformation of the decks directory: a
written file is appended, otherwise the directory is unchanged. -/
def runExport (env : ExportEnv) (tier batchSize : Nat)
    (cleaned : List CleanEntry) (dir : List DeckFile) : List DeckFile :=
  match exportTier env tier batchSize cleaned dir with
  | some f => dir ++ [f]
  | none => dir

/- ───────────────── Ingest ───────────────── -/

/-- External inputs of `ingest`: the four reference maps/sets loaded at the
start (`cefr`, `zipf`, `stop`, `known`), the three `wink-lemmatizer`
reduction functions used by `chooseLemma`, and `posOracle`, which models the
part-of-speech computation (WordNet first-sense lookup with cache, suffix
heuristics, CEFR fallback and the `posFromExample` context check) — a chain
of external collaborators whose combined result is one string per raw
word/lemma pair. -/
structure IngestEnv where
  cefr : String → Option CefrData
  zipf : String → Option Rat
  stop : String → Bool
  known : String → Bool
  lemNoun : String → String
  lemVerb : String → String
  lemAdj : String → String
  posOracle : RawWord → String → String

/-- The lemma `ingest` derives for a lowercased word. -/
def derivedLemma (env : IngestEnv) (wl : String) : String :=
  chooseLemma env.lemNoun env.lemVerb env.lemAdj env.cefr env.zipf wl

/-- Mutable state accumulated by one `ingest` run: the `seen` lemma set, the
cleaned entries, the two skip counters and the two skip logs. -/
structure IngestState where
  seen : List String
  cleaned : List CleanEntry
  skippedStop : Nat
  skippedDup : Nat
  loggedStop : List String
  loggedDup : List String
deriving DecidableEq, Repr

/-- The empty state at the start of an `ingest` run. -/
def initState : IngestState := ⟨[], [], 0, 0, [], []⟩

/-- The `CleanEntry` built for a surviving raw word: the raw fields spread
in, the lemma, the CEFR level (default `B2`), the externally computed part
of speech, the Zipf score (`zipf[wlower] ?? zipf[lemma] ?? 3.5`) and the
tier from `decideTier`. -/
def mkCleanEntry (env : IngestEnv) (r : RawWord) (w wl lem : String) :
    CleanEntry :=
  let lvl := ((env.cefr lem).map (fun c => c.level)).getD "B2"
  let z := ((env.zipf wl).orElse (fun _ => env.zipf lem)).getD
    ⟨7, 2, by decide, by decide⟩
  { word := w, ex := r.ex, count := r.count,
    lem := lem, level := lvl, pos := env.posOracle r lem, zipf := z,
    tier := decideTier lvl z r.count }

/-- JS test `!r.word || r.word.trim() === ''`: the word field is absent,
empty, or whitespace-only. -/
def wordBlank (r : RawWord) : Bool :=
  match r.word with
  | none => true
  | some w => jsTrim w == ""

/-- Processing of one raw word by `ingest`, in source order: skip blank
words silently; count and log stop words (raw form, then lemma); count and
log lemmas already seen; drop known lemmas silently; otherwise record the
lemma as seen and append the new `CleanEntry`. -/
def ingestStep (env : IngestEnv) (s : IngestState) (r : RawWord) :
    IngestState :=
  match r.word with
  | none => s
  | some w =>
    if jsTrim w == "" then s
    else
      let wl := jsToLower w
      if env.stop wl then
        { s with skippedStop := s.skippedStop + 1,
                 loggedStop := s.loggedStop ++ [wl] }
      else
        let lem := derivedLemma env wl
        if env.stop lem then
          { s with skippedStop := s.skippedStop + 1,
                   loggedStop := s.loggedStop ++ [wl ++ " (lemma: " ++ lem ++ ")"] }
        else if lem ∈ s.seen then
          { s with skippedDup := s.skippedDup + 1,
                   loggedDup := s.loggedDup ++ [lem] }
        else if env.known lem then s
        else
          { s with seen := s.seen ++ [lem],
                   cleaned := s.cleaned ++ [mkCleanEntry env r w wl lem] }

/-- Processing of a list of raw words from a given state.  The source issues
the per-word WordNet lookups with a concurrency cap of 8, but every `seen` /
`stop` / `known` check and the `seen.add` happen synchronously before the
first `await` of each task, and tasks are started in array order on a single
thread, so the filtering semantics are exactly this left fold. -/
def ingestFrom (env : IngestEnv) (s : IngestState) (rs : List RawWord) :
    IngestState :=
  rs.foldl (ingestStep env) s

/-- A whole `ingest` run on a raw-word array. -/
def ingestRun (env : IngestEnv) (rs : List RawWord) : IngestState :=
  ingestFrom env initState rs

/-- An input entry counts as an occurrence of lemma `L` when its word is
present and not blank, its lowercased form is not a raw stop word (so the
run actually derives a lemma for it), and the derived lemma is `L`. -/
def isOcc (env : IngestEnv) (L : String) (r : RawWord) : Bool :=
  match r.word with
  | none => false
  | some w =>
    !(jsTrim w == "") && !(env.stop (jsToLower w)) &&
      (derivedLemma env (jsToLower w) == L)

/-- Number of occurrences of lemma `L` in a raw-word input. -/
def occCount (env : IngestEnv) (L : String) (rs : List RawWord) : Nat :=
  (rs.filter (isOcc env L)).length

/- ───────────────── Concrete scenarios used by the theorems ───────────── -/

/-- A cleaned entry whose word coincides with its lemma, with integer Zipf
score 3, used to build concrete export scenarios. -/
def mkSimpleEntry (nm : String) (cnt : Nat) (tier : Nat) : CleanEntry :=
  ⟨nm, none, some cnt, nm, "B2", "", 3, tier⟩

/-- Export environment for the concrete scenarios: every WordNet lookup
returns no senses, and the Zipf formatter is a constant. -/
def envE : ExportEnv := ⟨fun _ => .ok [], fun _ => "3.00"⟩

/-- The batch-windowing scenario of the spec: 35 not-yet-exported tier-2
entries (distinct words equal to their lemmas, strictly descending lookup
counts). -/
def c1Entries : List CleanEntry :=
  (List.range 35).map (fun i => mkSimpleEntry ("w" ++ toString i) (100 - i) 2)

/-- The decks directory after the first tier-2 export call with batch size
30 on `c1Entries`. -/
def c1Dir1 : List DeckFile := runExport envE 2 30 c1Entries []

/-- Export-exclusion scenario: two tier-1 entries whose lemmas differ from
their surface words (`flew`/`fly`, `running`/`run`). -/
def c2Entries : List CleanEntry :=
  [⟨"flew", none, some 2, "fly", "B2", "", 3, 1⟩,
   ⟨"running", none, some 1, "run", "B2", "", 3, 1⟩]

/-- The decks directory after exporting `c2Entries` for tier 1 with batch
size 2 (both entries are written into `deck_t1_01.tsv`). -/
def c2Dir1 : List DeckFile := runExport envE 1 2 c2Entries []

/-- The decks directory after a second tier-1 export call, now with batch
size 1. -/
def c2Dir2 : List DeckFile := runExport envE 1 1 c2Entries c2Dir1

/-- The constant reduction function of the C4 counterexample. -/
def c4red : String → String := fun _ => "runn"

/-- CEFR map of the C4 counterexample: empty. -/
def c4cefr : String → Option CefrData := fun _ => none

/-- Zipf map of the C4 counterexample: only the original word `running` is
a key. -/
def c4zipf : String → Option Rat :=
  fun v => if v == "running" then some 3 else none

/-- Decks directory with tier-1 batch files numbered 1 and 5 (a gap, as
left by a manual deletion of intermediate batches). -/
def c5dir : List DeckFile := [⟨1, 1, []⟩, ⟨1, 5, []⟩]

/-- Six tier-1 entries, enough for the window of batch number 6 at batch
size 1 to be nonempty. -/
def c5Entries : List CleanEntry :=
  (List.range 6).map (fun i => mkSimpleEntry ("v" ++ toString i) (50 - i) 1)

/-- An entry with an empty part of speech, used to evaluate a rendered deck
row concretely. -/
def c6Entry : CleanEntry :=
  ⟨"boon", some "A boon to all.", some 1, "boon", "C1", "", 3, 1⟩

/-- Ingest environment of the C7 counterexample: no stop words, `cat` is a
known word, all reference maps empty, reductions are the identity (so every
word is its own lemma). -/
def c7env : IngestEnv :=
  ⟨fun _ => none, fun _ => none, fun _ => false, fun w => w == "cat",
   id, id, id, fun _ _ => ""⟩

/-- Raw input of the C7 counterexample: the same word twice. -/
def c7input : List RawWord :=
  [⟨some "cat", none, none⟩, ⟨some "cat", none, none⟩]

/-- Ingest environment of the C10 counterexample: `ran` is a stop word,
`run` is known, and every reduction rule maps to `run` (as the real
lemmatizer maps an inflected form to its base). -/
def c10env : IngestEnv :=
  ⟨fun _ => none, fun _ => none, fun w => w == "ran", fun w => w == "run",
   fun _ => "run", fun _ => "run", fun _ => "run", fun _ _ => ""⟩

/-- Raw input of the C10 counterexample: one occurrence of `ran`. -/
def c10input : List RawWord := [⟨some "ran", none, none⟩]

/-- Export environment of the C8 scenario: the lookup for `alpha` throws,
the lookup for any other lemma returns one noun sense with definition
`"a tiny part; more"` and synonyms `unit` and `beta`. -/
def c8env : ExportEnv :=
  ⟨fun l => if l == "alpha" then .err
    else .ok [⟨"n", "a tiny part; more", ["unit", "beta"], some 3⟩],
   fun _ => "Z"⟩

/-- Two tier-1 entries for the C8 scenario: `alpha` (whose lookup fails)
and `beta` (whose lookup succeeds). -/
def c8Entries : List CleanEntry :=
  [⟨"alpha", none, some 2, "alpha", "B2", "noun", 3, 1⟩,
   ⟨"beta", none, some 1, "beta", "B2", "", 3, 1⟩]

/-- The deck file written by the C8 scenario: the failed `alpha` row keeps
empty definition and synonym fields, and the `beta` row is still enriched
and written. -/
def c8File : DeckFile :=
  ⟨1, 1,
   ["alpha\tnoun\t\t\t\t\tTier1·B2·Zipf Z",
    "beta\tN/A\t\ta tiny part\t\tunit\tTier1·B2·Zipf Z"]⟩

example : jsToLower "RunX" = "runx" := by decide
example : jsTrim "  " = "" := by decide
example : splitOnChar '\t' "a\tb\t" = ["a", "b", ""] := by decide
example : replaceChar '_' ' ' "a_b" = "a b" := by decide
example : joinSep "\t" ["a", "b", "c"] = "a\tb\tc" := by decide

/- ───────────────── Shared helper lemmas ───────────────── -/

theorem foldlMax_le_init : ∀ (l : List Nat) (a : Nat), a ≤ l.foldl max a
  | [], _ => le_refl _
  | x :: xs, a => le_trans (le_max_left a x) (foldlMax_le_init xs (max a x))

theorem mem_le_foldlMax (l : List Nat) : ∀ (a x : Nat), x ∈ l → x ≤ l.foldl max a := by
  induction l with
  | nil => intro a x h; exact absurd h (List.not_mem_nil x)
  | cons y ys ih =>
    intro a x h
    cases h with
    | head => exact le_trans (le_max_right a _) (foldlMax_le_init ys _)
    | tail _ h => exact ih _ x h

theorem foldlMax_range_map : ∀ (k a : Nat),
    ((List.range k).map (fun i => i + 1)).foldl max a = max a k := by
  intro k
  induction k with
  | zero => intro a; simp
  | succ n ih =>
    intro a
    rw [List.range_succ, List.map_append, List.foldl_append, ih]
    simp only [List.map_cons, List.map_nil, List.foldl_cons, List.foldl_nil]
    rw [max_assoc]
    rw [max_eq_right (Nat.le_succ n)]

/- ───────────────── C3: classifier ───────────────── -/

/-- C3: the classifier returns tier 1 iff (the level's rank is at least
B2's rank, i.e. 3, and the frequency score is below 4) or the lookup count
(default 0) is at least 5; otherwise tier 2 when the score is below 5;
otherwise tier 3 — together with the four concrete spec cases: C1/3.0/0
gives tier 1, A1/4.5/1 gives tier 2, A1/6.0/0 gives tier 3, and count 5
gives tier 1 regardless of level and score. -/
theorem c3_decideTier_matches_spec :
    (∀ level r z c, levelRank level = some r →
        decideTier level z c =
          if (3 ≤ r ∧ z < 4) ∨ 5 ≤ c.getD 0 then 1
          else if z < 5 then 2 else 3)
    ∧ levelRank "B2" = some 3
    ∧ decideTier "C1" 3 (some 0) = 1
    ∧ decideTier "A1" (4.5 : Rat) (some 1) = 2
    ∧ decideTier "A1" 6 (some 0) = 3
    ∧ (∀ level z, decideTier level z (some 5) = 1) := by
  refine ⟨?_, rfl, by decide, ?_, by decide, ?_⟩
  · intro level r z c h
    simp only [decideTier, jsGECmp, h, show levelRank "B2" = some 3 from rfl]
    simp only [Bool.or_eq_true, Bool.and_eq_true, decide_eq_true_eq]
  · have h45 : (4.5 : Rat) = ⟨9, 2, by decide, by decide⟩ := by
      rw [Rat.mk'_eq_divInt, Rat.divInt_eq_div]
      norm_num
    rw [h45]
    decide
  · intro level z
    simp only [decideTier]
    simp

/-- C3 witness: the general classifier rule evaluated at level C2 (rank 5),
score 3, no count. -/
theorem c3_decideTier_matches_spec_witness : decideTier "C2" 3 none = 1 := by
  have h := c3_decideTier_matches_spec.1 "C2" 5 3 none rfl
  rw [h]
  norm_num

/- ───────────────── C4: lemma chooser ───────────────── -/

/-- C4 counterexample: the claim says the original word is a candidate in
the map-membership scan, but the source filters it out (`v !== w`).  With
all three reductions mapping `running` to `runn`, an empty CEFR map and a
Zipf map whose only key is `running`, the claimed algorithm
(`chooseLemmaSpec`) returns `running` while the code returns `runn`. -/
theorem c4_chooseLemma_counterexample :
    chooseLemma c4red c4red c4red c4cefr c4zipf "running" = "runn"
    ∧ chooseLemmaSpec c4red c4red c4red c4cefr c4zipf "running" = "running"
    ∧ chooseLemma c4red c4red c4red c4cefr c4zipf "running"
        ≠ chooseLemmaSpec c4red c4red c4red c4cefr c4zipf "running" := by
  refine ⟨by decide, by decide, by decide⟩

/-- C4 amended: the candidates examined by the normalizer are the noun,
verb and adjective reductions that are nonempty and differ from the word —
the original word, though placed in the initial candidate array, is removed
by that filter.  The first such candidate that is a key of the CEFR map, or
a key of the Zipf map with a nonzero score, is returned; otherwise the
first such candidate; otherwise the original word.  In particular a word
with no valid reduction maps to itself. -/
theorem c4_chooseLemma_amended :
    (∀ (ln lv la : String → String) cefr zipf w,
        chooseLemma ln lv la cefr zipf w =
          (match ([ln w, lv w, la w].filter (fun v => v != "" && v != w)).find?
              (fun v => (cefr v).isSome || jsTruthyNum (zipf v)) with
           | some v => v
           | none =>
             ([ln w, lv w, la w].filter (fun v => v != "" && v != w)).headD w))
    ∧ (∀ (ln lv la : String → String) cefr zipf w,
        ((ln w = "" ∨ ln w = w) ∧ (lv w = "" ∨ lv w = w) ∧ (la w = "" ∨ la w = w)) →
          chooseLemma ln lv la cefr zipf w = w) := by
  constructor
  · intro ln lv la cefr zipf w
    have hw : ([ln w, lv w, la w, w].filter (fun v => v != "" && v != w))
        = ([ln w, lv w, la w].filter (fun v => v != "" && v != w)) := by
      simp [List.filter_cons]
    simp only [chooseLemma, hw]
  · intro ln lv la cefr zipf w h
    obtain ⟨h1, h2, h3⟩ := h
    have hv : ∀ v ∈ [ln w, lv w, la w, w], (v != "" && v != w) = true → False := by
      intro v hv hvp
      simp only [List.mem_cons, List.not_mem_nil, or_false] at hv
      rcases hv with rfl | rfl | rfl | rfl
      · rcases h1 with h | h <;> simp [h] at hvp
      · rcases h2 with h | h <;> simp [h] at hvp
      · rcases h3 with h | h <;> simp [h] at hvp
      · simp at hvp
    have hfil : ([ln w, lv w, la w, w].filter (fun v => v != "" && v != w)) = [] := by
      rw [List.filter_eq_nil_iff]
      intro a ha
      intro hcontra
      exact hv a ha hcontra
    simp only [chooseLemma, hfil, List.find?_nil, List.headD_nil]

/-- C4 witness: the amended edge case applied to identity reductions — a
word with no valid reduction maps to itself. -/
theorem c4_chooseLemma_amended_witness :
    chooseLemma id id id (fun _ => none) (fun _ => none) "cat" = "cat" :=
  c4_chooseLemma_amended.2 id id id (fun _ => none) (fun _ => none) "cat"
    ⟨Or.inr rfl, Or.inr rfl, Or.inr rfl⟩

/- ───────────────── C5: batch numbering ───────────────── -/

/-- C5 counterexample: with existing tier-1 batch files numbered 1 and 5,
the source assigns the next export the batch number 6 (max id plus one),
not 3 (count of files plus one) as the claim states; the exported file's
id is indeed 6. -/
theorem c5_nextBatchId_counterexample :
    nextBatchId 1 c5dir = 6
    ∧ (exportTier envE 1 1 c5Entries c5dir).map (fun f => f.id) = some 6
    ∧ (c5dir.filter (fun f => f.tier == 1)).length + 1 = 3
    ∧ (6 : Nat) ≠ 3 := by
  refine ⟨by decide, by decide, by decide, by decide⟩

/-- C5 amended: the batch number assigned to a newly exported deck file is
one more than the maximum numeric id among the tier's existing batch files
(1 when there are none) — strictly larger than every existing id — and it
equals the count of existing batch files plus one exactly when those files
are numbered consecutively from 1. -/
theorem c5_nextBatchId_amended :
    (∀ tier dir, ∀ f ∈ dir, f.tier = tier → f.id < nextBatchId tier dir)
    ∧ (∀ tier dir, 1 ≤ nextBatchId tier dir)
    ∧ (∀ tier dir k,
        (dir.filter (fun f => f.tier == tier)).map (fun f => f.id)
          = (List.range k).map (fun i => i + 1) →
        nextBatchId tier dir = (dir.filter (fun f => f.tier == tier)).length + 1) := by
  have hone : ∀ tier dir, 1 ≤ nextBatchId tier dir := by
    intro tier dir
    simp only [nextBatchId]
    split
    · exact le_refl 1
    · omega
  refine ⟨?_, hone, ?_⟩
  · intro tier dir f hf ht
    by_cases h0 : 0 < f.id
    · have hmem : f.id ∈ ((dir.filter (fun g => g.tier == tier)).map
          (fun g => g.id)).filter (fun i => decide (0 < i)) := by
        rw [List.mem_filter]
        refine ⟨List.mem_map.mpr ⟨f, List.mem_filter.mpr ⟨hf, by simp [ht]⟩, rfl⟩,
          decide_eq_true h0⟩
      simp only [nextBatchId]
      split
      · next hlen =>
        rw [beq_iff_eq, List.length_eq_zero] at hlen
        rw [hlen] at hmem
        exact absurd hmem (List.not_mem_nil _)
      · have := mem_le_foldlMax _ 0 f.id hmem
        omega
    · have : f.id = 0 := by omega
      rw [this]
      exact hone tier dir
  · intro tier dir k h
    have hfil : (((dir.filter (fun f => f.tier == tier)).map (fun f => f.id)).filter
        (fun i => decide (0 < i)))
        = (List.range k).map (fun i => i + 1) := by
      rw [h, List.filter_eq_self]
      intro a ha
      obtain ⟨i, _, rfl⟩ := List.mem_map.mp ha
      simp
    have hlen : (dir.filter (fun f => f.tier == tier)).length = k := by
      have := congrArg List.length h
      simpa using this
    simp only [nextBatchId, hfil]
    cases k with
    | zero => simp [hlen]
    | succ n =>
      rw [foldlMax_range_map]
      have hne : (List.range (n + 1)).map (fun i => i + 1) ≠ [] := by
        simp [List.range_succ]
      have hcond : ¬ ((((List.range (n + 1)).map (fun i => i + 1)).length == 0) = true) := by
        simp only [beq_iff_eq]
        exact fun hc => hne (List.length_eq_zero.mp hc)
      rw [if_neg hcond]
      rw [hlen]
      simp

/-- C5 witness: with tier-1 batch files numbered 1 and 2 (consecutive from
1), the amended rule gives batch number 3 = count + 1. -/
theorem c5_nextBatchId_amended_witness :
    nextBatchId 1 [⟨1, 1, []⟩, ⟨1, 2, []⟩] = 3 := by
  have h := c5_nextBatchId_amended.2.2 1 [⟨1, 1, []⟩, ⟨1, 2, []⟩] 2 (by decide)
  exact h.trans (by decide)

/- ───────────────── C1: batch windowing (code bug) ───────────────── -/

/-- C1 (code bug): on 35 not-yet-exported tier-2 entries with batch size
30, the first export call writes `deck_t2_01.tsv` with 30 rows as the claim
says; but the second call computes its window start as
`(nextBatchId - 1) * batchSize = 30` into the list of entries that *already
excludes* the 30 exported lemmas — a double skip — so with 5 entries left
it selects nothing and writes no file, where the claim requires 5 rows.
The third call likewise writes nothing. -/
theorem c1_batch_window_code_behavior :
    c1Dir1.map (fun f => (f.tier, f.id, f.lines.length)) = [(2, 1, 30)]
    ∧ (wordsForTier 2 c1Entries c1Dir1).length = 5
    ∧ exportTier envE 2 30 c1Entries c1Dir1 = none
    ∧ runExport envE 2 30 c1Entries (runExport envE 2 30 c1Entries c1Dir1)
        = c1Dir1 := by
  refine ⟨by decide, by decide, by decide, by decide⟩

/- ───────────────── C2: export exclusion (code bug) ───────────────── -/

/-- C2 (code bug): the exclusion set is built from the first-column *words*
of existing deck rows, but the filter tests membership of the *lemma*; when
a word differs from its lemma the entry stays eligible after being
exported.  Exporting `c2Entries` (words `flew`/`running`, lemmas
`fly`/`run`) for tier 1 with batch size 2 and then batch size 1 writes the
row of the lemma `run` into both `deck_t1_01.tsv` and `deck_t1_02.tsv` —
the identical line occurs in both files, which the claim forbids. -/
theorem c2_export_exclusion_code_behavior :
    c2Dir2.map (fun f => (f.tier, f.id, f.lines.length)) = [(1, 1, 2), (1, 2, 1)]
    ∧ ((c2Dir2.getD 1 ⟨0, 0, []⟩).lines.getD 0 "")
        ∈ (c2Dir2.getD 0 ⟨0, 0, []⟩).lines
    ∧ (c2Dir2.getD 1 ⟨0, 0, []⟩).lines
        = [renderLine envE.showZipf 1
            ⟨"running", none, some 1, "run", "B2", "", 3, 1⟩ ⟨"", []⟩] := by
  refine ⟨by decide, by decide, by decide⟩

/- ───────────────── C6: deck row format ───────────────── -/

/-- C6 counterexample: a concretely exported row splits into seven
tab-separated columns, not six, and its first column is the word alone
(the part of speech is a separate second column). -/
theorem c6_deck_row_counterexample :
    (exportTier envE 1 30 [c6Entry] []).map
        (fun f => f.lines.map (fun l => (splitOnChar '\t' l).length))
      = some [7]
    ∧ (7 : Nat) ≠ 6
    ∧ (splitOnChar '\t' (renderLine envE.showZipf 1 c6Entry ⟨"", []⟩)).headD ""
        = "boon" := by
  refine ⟨by decide, by decide, by decide⟩

/- ───────────────── String split/join helper lemmas ───────────────── -/

theorem string_mk_data (s : String) : String.mk s.data = s := by cases s; rfl

theorem splitCharAux_no_sep (c : Char) :
    ∀ (xs : List Char), c ∉ xs → ∀ (rest acc : List Char),
      splitCharAux c (xs ++ rest) acc = splitCharAux c rest (xs.reverse ++ acc) := by
  intro xs
  induction xs with
  | nil => intro _ rest acc; simp
  | cons x xs ih =>
    intro hx rest acc
    have hxc : ¬ (x = c) := fun h => hx (h ▸ List.mem_cons_self x xs)
    have hxs : c ∉ xs := fun h => hx (List.mem_cons_of_mem x h)
    simp only [List.cons_append, splitCharAux, if_neg hxc]
    show splitCharAux c (xs ++ rest) (x :: acc) = _
    rw [ih hxs rest (x :: acc)]
    simp

theorem splitOnChar_joinSep (c : Char) (sep : String) (hsep : sep.data = [c]) :
    ∀ (fields : List String), fields ≠ [] → (∀ f ∈ fields, c ∉ f.data) →
      splitOnChar c (joinSep sep fields) = fields := by
  intro fields
  induction fields with
  | nil => intro h; exact absurd rfl h
  | cons f gs ih =>
    intro _ hfree
    have hf : c ∉ f.data := hfree f (List.mem_cons_self f gs)
    cases gs with
    | nil =>
      show splitOnChar c f = [f]
      unfold splitOnChar
      rw [show f.data = f.data ++ [] by simp, splitCharAux_no_sep c f.data hf [] []]
      simp [splitCharAux, string_mk_data]
    | cons g gs' =>
      have hrest : joinSep sep (f :: g :: gs') = f ++ sep ++ joinSep sep (g :: gs') := rfl
      have hgs : g :: gs' ≠ [] := by simp
      have hgfree : ∀ x ∈ g :: gs', c ∉ x.data := by
        intro x hx
        exact hfree x (List.mem_cons_of_mem f hx)
      unfold splitOnChar
      rw [hrest]
      have hdata : (f ++ sep ++ joinSep sep (g :: gs')).data
          = f.data ++ (c :: (joinSep sep (g :: gs')).data) := by
        simp [String.data_append, hsep]
      rw [hdata, splitCharAux_no_sep c f.data hf _ []]
      simp only [splitCharAux, if_pos rfl]
      rw [List.append_nil, List.reverse_reverse, string_mk_data]
      have := ih hgs hgfree
      unfold splitOnChar at this
      rw [this]
      simp

theorem mkCleanEntry_lem (env : IngestEnv) (r : RawWord) (w wl lem : String) :
    (mkCleanEntry env r w wl lem).lem = lem := rfl

theorem ingestStep_cases (env : IngestEnv) (s : IngestState) (r : RawWord) :
    (ingestStep env s r = s)
    ∨ (∃ x, ingestStep env s r =
        { s with skippedStop := s.skippedStop + 1, loggedStop := s.loggedStop ++ [x] })
    ∨ (∃ lem, lem ∈ s.seen ∧ ingestStep env s r =
        { s with skippedDup := s.skippedDup + 1, loggedDup := s.loggedDup ++ [lem] })
    ∨ (∃ w lem, r.word = some w ∧ lem = derivedLemma env (jsToLower w)
        ∧ env.stop lem = false ∧ env.known lem = false ∧ lem ∉ s.seen
        ∧ ingestStep env s r =
          { s with seen := s.seen ++ [lem],
                   cleaned := s.cleaned ++ [mkCleanEntry env r w (jsToLower w) lem] }) := by
  cases hw : r.word with
  | none =>
    left
    simp only [ingestStep, hw]
  | some w =>
    by_cases hb : (jsTrim w == "") = true
    · left
      simp only [ingestStep, hw, if_pos hb]
    · by_cases hs1 : env.stop (jsToLower w) = true
      · refine Or.inr (Or.inl ⟨jsToLower w, ?_⟩)
        simp only [ingestStep, hw, if_neg hb, if_pos hs1]
      · by_cases hs2 : env.stop (derivedLemma env (jsToLower w)) = true
        · refine Or.inr (Or.inl
            ⟨jsToLower w ++ " (lemma: " ++ derivedLemma env (jsToLower w) ++ ")", ?_⟩)
          simp only [ingestStep, hw, if_neg hb, if_neg hs1, if_pos hs2]
        · by_cases hseen : derivedLemma env (jsToLower w) ∈ s.seen
          · refine Or.inr (Or.inr (Or.inl ⟨_, hseen, ?_⟩))
            simp only [ingestStep, hw, if_neg hb, if_neg hs1, if_neg hs2, if_pos hseen]
          · by_cases hkn : env.known (derivedLemma env (jsToLower w)) = true
            · left
              simp only [ingestStep, hw, if_neg hb, if_neg hs1, if_neg hs2,
                if_neg hseen, if_pos hkn]
            · refine Or.inr (Or.inr (Or.inr ⟨w, _, rfl, rfl,
                ?_, ?_, hseen, ?_⟩))
              · exact Bool.not_eq_true _ ▸ hs2
              · exact Bool.not_eq_true _ ▸ hkn
              simp only [ingestStep, hw, if_neg hb, if_neg hs1, if_neg hs2,
                if_neg hseen, if_neg hkn]

theorem isOcc_none (env : IngestEnv) (L : String) (r : RawWord)
    (hw : r.word = none) : isOcc env L r = false := by
  simp only [isOcc, hw]

theorem isOcc_some (env : IngestEnv) (L : String) (r : RawWord) (w : String)
    (hw : r.word = some w) :
    isOcc env L r = (!(jsTrim w == "") && !(env.stop (jsToLower w)) &&
      (derivedLemma env (jsToLower w) == L)) := by
  simp only [isOcc, hw]

theorem ingestStep_occ (env : IngestEnv) (L : String) (s : IngestState)
    (r : RawWord) (w : String) (hw : r.word = some w)
    (hb : (jsTrim w == "") = false) (hs1 : env.stop (jsToLower w) = false)
    (hL : derivedLemma env (jsToLower w) = L) (hstopL : env.stop L = false) :
    ingestStep env s r =
      if L ∈ s.seen then
        { s with skippedDup := s.skippedDup + 1, loggedDup := s.loggedDup ++ [L] }
      else if env.known L = true then s
      else
        { s with seen := s.seen ++ [L],
                 cleaned := s.cleaned ++ [mkCleanEntry env r w (jsToLower w) L] } := by
  simp only [ingestStep, hw, hb, hs1, hL, hstopL, Bool.false_eq_true, if_false]

theorem ingestStep_not_occ (env : IngestEnv) (L : String) (s : IngestState)
    (r : RawWord) (h : isOcc env L r = false) :
    ((L ∈ (ingestStep env s r).seen) ↔ (L ∈ s.seen))
    ∧ ((ingestStep env s r).cleaned.filter (fun e => e.lem == L)
        = s.cleaned.filter (fun e => e.lem == L))
    ∧ ((ingestStep env s r).loggedDup.count L = s.loggedDup.count L) := by
  cases hw : r.word with
  | none =>
    simp only [ingestStep, hw]
    simp
  | some w =>
    by_cases hb : (jsTrim w == "") = true
    · simp only [ingestStep, hw, if_pos hb]
      simp
    · have hb' : (jsTrim w == "") = false := Bool.not_eq_true _ ▸ hb
      by_cases hs1 : env.stop (jsToLower w) = true
      · simp only [ingestStep, hw, if_neg hb, if_pos hs1]
        simp
      · have hs1' : env.stop (jsToLower w) = false := Bool.not_eq_true _ ▸ hs1
        have hL : (derivedLemma env (jsToLower w) == L) = false := by
          rw [isOcc_some env L r w hw, hb', hs1'] at h
          simpa using h
        have hLne : derivedLemma env (jsToLower w) ≠ L := by
          intro hc
          rw [hc] at hL
          simp at hL
        have hLne' : ¬ (L = derivedLemma env (jsToLower w)) := fun hc => hLne hc.symm
        by_cases hs2 : env.stop (derivedLemma env (jsToLower w)) = true
        · simp only [ingestStep, hw, if_neg hb, if_neg hs1, if_pos hs2]
          simp
        · by_cases hseen : derivedLemma env (jsToLower w) ∈ s.seen
          · simp only [ingestStep, hw, if_neg hb, if_neg hs1, if_neg hs2, if_pos hseen]
            simp [List.count_append, List.count_cons, hL]
          · by_cases hkn : env.known (derivedLemma env (jsToLower w)) = true
            · simp only [ingestStep, hw, if_neg hb, if_neg hs1, if_neg hs2,
                if_neg hseen, if_pos hkn]
              simp
            · simp only [ingestStep, hw, if_neg hb, if_neg hs1, if_neg hs2,
                if_neg hseen, if_neg hkn]
              refine ⟨?_, ?_, by simp⟩
              · simp [List.mem_append, hLne']
              · rw [List.filter_append]
                have : (mkCleanEntry env r w (jsToLower w)
                    (derivedLemma env (jsToLower w))).lem
                    = derivedLemma env (jsToLower w) := rfl
                simp [List.filter_cons, this, hL]

theorem ingestFrom_cons (env : IngestEnv) (s : IngestState) (r : RawWord)
    (rs : List RawWord) :
    ingestFrom env s (r :: rs) = ingestFrom env (ingestStep env s r) rs := rfl

theorem occCount_cons_pos (env : IngestEnv) (L : String) (r : RawWord)
    (rs : List RawWord) (h : isOcc env L r = true) :
    occCount env L (r :: rs) = occCount env L rs + 1 := by
  simp [occCount, List.filter_cons, h]

theorem occCount_cons_neg (env : IngestEnv) (L : String) (r : RawWord)
    (rs : List RawWord) (h : isOcc env L r = false) :
    occCount env L (r :: rs) = occCount env L rs := by
  simp [occCount, List.filter_cons, h]

theorem ingestFrom_lemma_stats (env : IngestEnv) (L : String)
    (hstop : env.stop L = false) (hkn : env.known L = false) :
    ∀ (rs : List RawWord) (s : IngestState),
      ((L ∈ (ingestFrom env s rs).seen)
         ↔ (L ∈ s.seen ∨ 1 ≤ occCount env L rs))
      ∧ ((ingestFrom env s rs).cleaned.filter (fun e => e.lem == L)
          = s.cleaned.filter (fun e => e.lem == L)
            ++ (if L ∈ s.seen then []
                else match rs.find? (isOcc env L) with
                  | none => []
                  | some r => [mkCleanEntry env r ((r.word).getD "")
                      (jsToLower ((r.word).getD "")) L]))
      ∧ ((ingestFrom env s rs).loggedDup.count L
          = s.loggedDup.count L
            + (if L ∈ s.seen then occCount env L rs
               else occCount env L rs - 1)) := by
  intro rs
  induction rs with
  | nil =>
    intro s
    refine ⟨by simp [ingestFrom, occCount], ?_, by simp [ingestFrom, occCount]⟩
    simp only [ingestFrom, List.foldl_nil, List.find?_nil]
    split <;> simp
  | cons r rs ih =>
    intro s
    by_cases hocc : isOcc env L r = true
    · obtain ⟨w, hw⟩ : ∃ w, r.word = some w := by
        cases hwo : r.word with
        | none =>
          rw [isOcc_none env L r hwo] at hocc
          exact absurd hocc (by simp)
        | some w => exact ⟨w, rfl⟩
      have h3 : (!(jsTrim w == "") && !(env.stop (jsToLower w)) &&
          (derivedLemma env (jsToLower w) == L)) = true := by
        rw [← isOcc_some env L r w hw]
        exact hocc
      rw [Bool.and_eq_true, Bool.and_eq_true] at h3
      obtain ⟨⟨hb0, hs10⟩, hL0⟩ := h3
      have hb : (jsTrim w == "") = false := by
        cases hx : (jsTrim w == "") <;> simp [hx] at hb0 ⊢
      have hs1 : env.stop (jsToLower w) = false := by
        cases hx : env.stop (jsToLower w) <;> simp [hx] at hs10 ⊢
      have hL : derivedLemma env (jsToLower w) = L := by
        exact beq_iff_eq.mp hL0
      have hstep := ingestStep_occ env L s r w hw hb hs1 hL hstop
      have hfind : (r :: rs).find? (isOcc env L) = some r := by
        simp [List.find?_cons, hocc]
      have hoccc := occCount_cons_pos env L r rs hocc
      by_cases hseen : L ∈ s.seen
      · rw [if_pos hseen] at hstep
        rw [ingestFrom_cons, hstep]
        obtain ⟨ih1, ih2, ih3⟩ := ih ({ s with skippedDup := s.skippedDup + 1, loggedDup := s.loggedDup ++ [L] })
        refine ⟨?_, ?_, ?_⟩
        · rw [ih1]
          simp only []
          constructor
          · intro h'
            exact Or.inl hseen
          · intro h'
            exact Or.inl hseen
        · rw [ih2]
          simp only [if_pos hseen]
        · rw [ih3]
          simp only [if_pos hseen, List.count_append, List.count_cons, hoccc]
          simp
          omega
      · rw [if_neg hseen, if_neg (by simp [hkn] : ¬ (env.known L = true))] at hstep
        rw [ingestFrom_cons, hstep]
        obtain ⟨ih1, ih2, ih3⟩ := ih ({ s with seen := s.seen ++ [L], cleaned := s.cleaned ++ [mkCleanEntry env r w (jsToLower w) L] })
        have hseen' : L ∈ s.seen ++ [L] := by simp
        refine ⟨?_, ?_, ?_⟩
        · rw [ih1]
          simp only []
          constructor
          · intro h'
            right
            omega
          · intro h'
            exact Or.inl hseen'
        · rw [ih2]
          simp only [if_pos hseen', if_neg hseen, List.append_nil, hfind]
          rw [List.filter_append]
          have hmk : (mkCleanEntry env r w (jsToLower w) L).lem = L := rfl
          have hgd : (r.word).getD "" = w := by rw [hw]; rfl
          simp [List.filter_cons, hmk, hgd]
        · rw [ih3]
          simp only [if_pos hseen', if_neg hseen]
          rw [hoccc]
          omega
    · have hocc' : isOcc env L r = false := Bool.not_eq_true _ ▸ hocc
      have hno := ingestStep_not_occ env L s r hocc'
      obtain ⟨hn1, hn2, hn3⟩ := hno
      have hfind : (r :: rs).find? (isOcc env L) = rs.find? (isOcc env L) := by
        simp [List.find?_cons, hocc']
      have hoccc := occCount_cons_neg env L r rs hocc'
      rw [ingestFrom_cons]
      obtain ⟨ih1, ih2, ih3⟩ := ih (ingestStep env s r)
      refine ⟨?_, ?_, ?_⟩
      · rw [ih1, hoccc]
        constructor
        · rintro (h' | h')
          · exact Or.inl (hn1.mp h')
          · exact Or.inr h'
        · rintro (h' | h')
          · exact Or.inl (hn1.mpr h')
          · exact Or.inr h'
      · rw [ih2, hn2, hfind]
        have h' : (L ∈ (ingestStep env s r).seen) = (L ∈ s.seen) := propext hn1
        simp only [h']
      · rw [ih3, hn3, hoccc]
        have h' : (L ∈ (ingestStep env s r).seen) = (L ∈ s.seen) := propext hn1
        simp only [h']

/- ───────────────── Ingest helper lemmas and remaining claims ──────────── -/

theorem ingestFrom_no_entry (env : IngestEnv) (L : String)
    (h : env.stop L = true ∨ env.known L = true) :
    ∀ (rs : List RawWord) (s : IngestState),
      (ingestFrom env s rs).cleaned.filter (fun e => e.lem == L)
        = s.cleaned.filter (fun e => e.lem == L) := by
  intro rs
  induction rs with
  | nil => intro s; rfl
  | cons r rs ih =>
    intro s
    rw [ingestFrom_cons]
    rw [ih (ingestStep env s r)]
    rcases ingestStep_cases env s r with h1 | ⟨x, h2⟩ | ⟨lem, _, h3⟩ | ⟨w, lem, _, _, hsl, hknl, _, h4⟩
    · rw [h1]
    · rw [h2]
    · rw [h3]
    · rw [h4]
      have hne : lem ≠ L := by
        intro hc
        subst hc
        rcases h with h | h
        · rw [hsl] at h; exact Bool.false_ne_true h
        · rw [hknl] at h; exact Bool.false_ne_true h
      have hmk : (mkCleanEntry env r w (jsToLower w) lem).lem = lem := rfl
      rw [List.filter_append]
      simp [List.filter_cons, hmk, hne]

theorem ingestFrom_dup_log_len (env : IngestEnv) :
    ∀ (rs : List RawWord) (s : IngestState),
      s.skippedDup = s.loggedDup.length →
      (ingestFrom env s rs).skippedDup = (ingestFrom env s rs).loggedDup.length := by
  intro rs
  induction rs with
  | nil => intro s h; exact h
  | cons r rs ih =>
    intro s h
    rw [ingestFrom_cons]
    apply ih
    rcases ingestStep_cases env s r with h1 | ⟨x, h2⟩ | ⟨lem, _, h3⟩ | ⟨w, lem, _, _, _, _, _, h4⟩
    · rw [h1]; exact h
    · rw [h2]; exact h
    · rw [h3]; simp [h]
    · rw [h4]; exact h

theorem isOcc_elim (env : IngestEnv) (L : String) (r : RawWord)
    (h : isOcc env L r = true) :
    ∃ w, r.word = some w ∧ (jsTrim w == "") = false
      ∧ env.stop (jsToLower w) = false ∧ derivedLemma env (jsToLower w) = L := by
  cases hw : r.word with
  | none =>
    rw [isOcc_none env L r hw] at h
    exact absurd h (by simp)
  | some w =>
    rw [isOcc_some env L r w hw] at h
    rw [Bool.and_eq_true, Bool.and_eq_true] at h
    obtain ⟨⟨hb0, hs10⟩, hL0⟩ := h
    refine ⟨w, rfl, ?_, ?_, beq_iff_eq.mp hL0⟩
    · cases hx : (jsTrim w == "") <;> simp [hx] at hb0 ⊢
    · cases hx : env.stop (jsToLower w) <;> simp [hx] at hs10 ⊢

/-- C7 amended: at most one `CleanEntry` per lemma in any run; for a lemma
that is neither a stop word nor known, with at least one occurrence (an
entry whose word is present, non-blank, not a raw stop word, and derives
that lemma), exactly one `CleanEntry` is produced — built from the *first
surviving* occurrence — and the duplicate log gains occurrences − 1 entries
for that lemma, the global duplicate counter always equalling the length of
the duplicate log. -/
theorem c7_dedup_amended :
    (∀ env rs L, (ingestRun env rs).cleaned.countP (fun e => e.lem == L) ≤ 1)
    ∧ (∀ env rs L, env.stop L = false → env.known L = false →
        1 ≤ occCount env L rs →
        ((ingestRun env rs).cleaned.filter (fun e => e.lem == L)
          = (match rs.find? (isOcc env L) with
             | none => []
             | some r => [mkCleanEntry env r ((r.word).getD "")
                 (jsToLower ((r.word).getD "")) L])
        ∧ (ingestRun env rs).cleaned.countP (fun e => e.lem == L) = 1
        ∧ (ingestRun env rs).loggedDup.count L = occCount env L rs - 1))
    ∧ (∀ env rs, (ingestRun env rs).skippedDup = (ingestRun env rs).loggedDup.length) := by
  refine ⟨?_, ?_, ?_⟩
  · intro env rs L
    rw [List.countP_eq_length_filter]
    by_cases hsk : env.stop L = true ∨ env.known L = true
    · rw [show (ingestRun env rs) = ingestFrom env initState rs from rfl,
        ingestFrom_no_entry env L hsk rs initState]
      simp [initState]
    · push_neg at hsk
      obtain ⟨hs, hk⟩ := hsk
      have hs' : env.stop L = false := Bool.not_eq_true _ ▸ hs
      have hk' : env.known L = false := Bool.not_eq_true _ ▸ hk
      have h := (ingestFrom_lemma_stats env L hs' hk' rs initState).2.1
      rw [show (ingestRun env rs) = ingestFrom env initState rs from rfl, h]
      rcases hf : rs.find? (isOcc env L) with _ | r <;> simp [initState, hf]
  · intro env rs L hs hk hocc
    have h := ingestFrom_lemma_stats env L hs hk rs initState
    obtain ⟨h1, h2, h3⟩ := h
    have hnotseen : ¬ (L ∈ initState.seen) := by simp [initState]
    have hfind : ∃ r, rs.find? (isOcc env L) = some r := by
      have : 1 ≤ (rs.filter (isOcc env L)).length := hocc
      rcases hfe : rs.filter (isOcc env L) with _ | ⟨r, rest⟩
      · rw [hfe] at this; simp at this
      · have hr : r ∈ rs.filter (isOcc env L) := by rw [hfe]; exact List.mem_cons_self r rest
        have := List.of_mem_filter hr
        have hmem := List.mem_of_mem_filter hr
        have : (rs.find? (isOcc env L)).isSome := by
          rw [List.find?_isSome]
          exact ⟨r, hmem, this⟩
        exact Option.isSome_iff_exists.mp this
    obtain ⟨r, hr⟩ := hfind
    refine ⟨?_, ?_, ?_⟩
    · rw [show (ingestRun env rs) = ingestFrom env initState rs from rfl, h2,
        if_neg hnotseen]
      simp [initState]
    · rw [List.countP_eq_length_filter,
        show (ingestRun env rs) = ingestFrom env initState rs from rfl, h2,
        if_neg hnotseen, hr]
      simp [initState]
    · rw [show (ingestRun env rs) = ingestFrom env initState rs from rfl, h3,
        if_neg hnotseen]
      simp [initState]
  · intro env rs
    exact ingestFrom_dup_log_len env rs initState (by simp [initState])

/-- C7 counterexample: the lemma `cat` occurs twice in the input, but it is
a known word, so the run produces *zero* `CleanEntry` records for it and
the duplicate counter stays 0 — while the claim requires exactly one entry
and a duplicate increment of 1. -/
theorem c7_dedup_counterexample :
    occCount c7env "cat" c7input = 2
    ∧ (ingestRun c7env c7input).cleaned.countP (fun e => e.lem == "cat") = 0
    ∧ (ingestRun c7env c7input).skippedDup = 0
    ∧ (ingestRun c7env c7input).loggedDup = [] := by
  refine ⟨by decide, by decide, by decide, by decide⟩

/-- C7 witness: the amended statement applied to the lemma `dog` occurring
twice — one entry, one logged duplicate. -/
theorem c7_dedup_amended_witness :
    (ingestRun c7env [⟨some "dog", none, none⟩, ⟨some "dog", none, none⟩]).cleaned.countP
        (fun e => e.lem == "dog") = 1
    ∧ (ingestRun c7env [⟨some "dog", none, none⟩,
        ⟨some "dog", none, none⟩]).loggedDup.count "dog" = 1 := by
  have h := c7_dedup_amended.2.1 c7env
    [⟨some "dog", none, none⟩, ⟨some "dog", none, none⟩] "dog" rfl (by decide) (by decide)
  exact ⟨h.2.1, h.2.2.trans (by decide)⟩

theorem ingestFrom_known_inv (env : IngestEnv) (L : String)
    (hkn : env.known L = true) :
    ∀ (rs : List RawWord) (s : IngestState), L ∉ s.seen →
      (L ∉ (ingestFrom env s rs).seen
        ∧ (ingestFrom env s rs).cleaned.filter (fun e => e.lem == L)
            = s.cleaned.filter (fun e => e.lem == L)
        ∧ (ingestFrom env s rs).loggedDup.count L = s.loggedDup.count L) := by
  intro rs
  induction rs with
  | nil => intro s h; exact ⟨h, rfl, rfl⟩
  | cons r rs ih =>
    intro s h
    rw [ingestFrom_cons]
    rcases ingestStep_cases env s r with h1 | ⟨x, h2⟩ | ⟨lem, hlem, h3⟩
      | ⟨w, lem, _, _, _, hknl, _, h4⟩
    · rw [h1]; exact ih s h
    · rw [h2]
      have := ih ({ s with skippedStop := s.skippedStop + 1, loggedStop := s.loggedStop ++ [x] }) h
      exact this
    · rw [h3]
      have hne : lem ≠ L := fun hc => h (hc ▸ hlem)
      have := ih ({ s with skippedDup := s.skippedDup + 1, loggedDup := s.loggedDup ++ [lem] }) h
      obtain ⟨a1, a2, a3⟩ := this
      refine ⟨a1, a2, ?_⟩
      rw [a3]
      simp [List.count_append, List.count_cons, hne]
    · rw [h4]
      have hne : lem ≠ L := by
        intro hc
        rw [hc, hkn] at hknl
        exact Bool.false_ne_true hknl.symm
      have hns : L ∉ s.seen ++ [lem] := by
        intro hc
        rcases List.mem_append.mp hc with hc | hc
        · exact h hc
        · exact hne ((List.mem_singleton.mp hc).symm)
      have := ih ({ s with seen := s.seen ++ [lem], cleaned := s.cleaned ++ [mkCleanEntry env r w (jsToLower w) lem] }) hns
      obtain ⟨a1, a2, a3⟩ := this
      refine ⟨a1, ?_, a3⟩
      rw [a2]
      have hmk : (mkCleanEntry env r w (jsToLower w) lem).lem = lem := rfl
      rw [List.filter_append]
      simp [List.filter_cons, hmk, hne]

/-- C10 amended: a known lemma that is not a stop word never enters the
seen set, never yields a `CleanEntry` and is never counted or logged as a
duplicate; moreover any occurrence of it whose *raw lowercased form* also
passes the stop-word check is dropped with the state completely unchanged.
(The raw-form proviso is what the counterexample forces: an occurrence
whose surface form is itself a stop word increments the stop counter.) -/
theorem c10_known_lemma_amended :
    ∀ env L, env.known L = true → env.stop L = false →
      (∀ rs, L ∉ (ingestRun env rs).seen
        ∧ (ingestRun env rs).cleaned.countP (fun e => e.lem == L) = 0
        ∧ (ingestRun env rs).loggedDup.count L = 0)
      ∧ (∀ s r, L ∉ s.seen → isOcc env L r = true → ingestStep env s r = s) := by
  intro env L hkn hstop
  constructor
  · intro rs
    have h := ingestFrom_known_inv env L hkn rs initState (by simp [initState])
    obtain ⟨a1, a2, a3⟩ := h
    refine ⟨a1, ?_, by rw [show ingestRun env rs = ingestFrom env initState rs from rfl, a3]; simp [initState]⟩
    rw [List.countP_eq_length_filter,
      show ingestRun env rs = ingestFrom env initState rs from rfl, a2]
    simp [initState]
  · intro s r hseen hocc
    obtain ⟨w, hw, hb, hs1, hL⟩ := isOcc_elim env L r hocc
    have hstep := ingestStep_occ env L s r w hw hb hs1 hL hstop
    rw [hstep, if_neg hseen, if_pos hkn]

/-- C10 counterexample: the surface word `ran` is a stop word while its
derived lemma `run` is a known word and not a stop word; ingesting `ran`
increments the stop-word counter, which the claim (quantified over every
occurrence of a known lemma) forbids. -/
theorem c10_known_lemma_counterexample :
    derivedLemma c10env "ran" = "run"
    ∧ c10env.known "run" = true
    ∧ c10env.stop "run" = false
    ∧ (ingestRun c10env c10input).skippedStop = 1
    ∧ (ingestRun c10env c10input).cleaned = [] := by
  refine ⟨by decide, by decide, by decide, by decide, by decide⟩

/-- C10 witness: the amended statement applied to the known lemma `run`
occurring as the surface word `running` (not a stop word): the lemma never
enters the seen set and the processing step leaves the state unchanged. -/
theorem c10_known_lemma_amended_witness :
    "run" ∉ (ingestRun c10env [⟨some "running", none, none⟩]).seen
    ∧ ingestStep c10env initState ⟨some "running", none, none⟩ = initState := by
  have h := c10_known_lemma_amended c10env "run" rfl rfl
  exact ⟨(h.1 [⟨some "running", none, none⟩]).1,
    h.2 initState ⟨some "running", none, none⟩ (by decide) (by decide)⟩

/-- C9: a raw entry whose word is absent, empty or whitespace-only is
dropped silently — processing it leaves the ingest state completely
unchanged (no `CleanEntry`, no counter, no log), and a whole run behaves
exactly as if the blank entries were removed from the input; the function
is total, so no fatal error is possible on this path. -/
theorem c9_blank_words_dropped :
    (∀ env s rs, ingestFrom env s rs
        = ingestFrom env s (rs.filter (fun r => !(wordBlank r))))
    ∧ (∀ env s r, wordBlank r = true → ingestStep env s r = s) := by
  have hstep : ∀ (env : IngestEnv) (s : IngestState) (r : RawWord),
      wordBlank r = true → ingestStep env s r = s := by
    intro env s r h
    cases hw : r.word with
    | none => simp only [ingestStep, hw]
    | some w =>
      have hb : (jsTrim w == "") = true := by
        simpa [wordBlank, hw] using h
      simp only [ingestStep, hw, if_pos hb]
  refine ⟨?_, hstep⟩
  intro env s rs
  induction rs generalizing s with
  | nil => rfl
  | cons r rs ih =>
    by_cases h : wordBlank r = true
    · rw [List.filter_cons, if_neg (by simp [h])]
      rw [ingestFrom_cons, hstep env s r h]
      exact ih s
    · have h' : wordBlank r = false := Bool.not_eq_true _ ▸ h
      rw [List.filter_cons, if_pos (by simp [h'])]
      rw [ingestFrom_cons, ingestFrom_cons]
      exact ih (ingestStep env s r)

/-- C9 witness: processing a whitespace-only word leaves the initial state
unchanged. -/
theorem c9_blank_words_dropped_witness :
    ingestStep c7env initState ⟨some " ", none, none⟩ = initState :=
  c9_blank_words_dropped.2 c7env initState ⟨some " ", none, none⟩ (by decide)

/-- C8: a WordNet lookup that throws, or returns no senses, enriches to the
empty definition and empty synonym list; and whenever `exportTier` writes a
file, its lines are exactly one rendered row per window entry, each entry
enriched independently from its own lookup outcome — so one failed lookup
never drops the row or the rest of the batch. -/
theorem c8_enrichment_degrades :
    (∀ lem pos, enrich .err lem pos = ⟨"", []⟩)
    ∧ (∀ lem pos, enrich (.ok []) lem pos = ⟨"", []⟩)
    ∧ (∀ env tier bs cleaned dir f, exportTier env tier bs cleaned dir = some f →
        f.lines = (selectBatch tier bs cleaned dir).map (fun e =>
          renderLine env.showZipf tier e (enrich (env.oracle e.lem) e.lem e.pos))
        ∧ f.lines.length = (selectBatch tier bs cleaned dir).length) := by
  refine ⟨fun _ _ => rfl, fun _ _ => rfl, ?_⟩
  intro env tier bs cleaned dir f h
  simp only [exportTier] at h
  split at h
  · exact absurd h (by simp)
  · split at h
    · exact absurd h (by simp)
    · have hf := Option.some_inj.mp h
      rw [← hf]
      exact ⟨rfl, by simp⟩

/-- C8 witness: in the concrete scenario the lookup for `alpha` throws and
the one for `beta` succeeds; the written file has both rows, `alpha` with
empty definition and synonyms, `beta` fully enriched. -/
theorem c8_enrichment_degrades_witness :
    c8File.lines = (selectBatch 1 30 c8Entries []).map (fun e =>
      renderLine c8env.showZipf 1 e (enrich (c8env.oracle e.lem) e.lem e.pos))
    ∧ c8File.lines.length = 2 := by
  have h := c8_enrichment_degrades.2.2 c8env 1 30 c8Entries [] c8File (by decide)
  exact ⟨h.1, h.2.trans (by decide)⟩

/-- C6 amended: every rendered deck row is the tab-join of exactly *seven*
fields in order — the word, the part of speech (`N/A` when empty), a blank
placeholder, the definition, the example truncated to at most 120
characters, the comma-joined synonyms, and the tier/level/Zipf tag — and
splitting the row on tabs recovers exactly those seven columns whenever no
field itself contains a tab. -/
theorem c6_deck_row_amended :
    (∀ (sz : Rat → String) (tier : Nat) (e : CleanEntry) (d : Enrichment),
        renderLine sz tier e d = joinSep "\t"
          [e.word, if e.pos == "" then "N/A" else e.pos, "", d.defn,
           jsTake 120 (e.ex.getD ""), joinSep ", " d.syn,
           "Tier" ++ toString tier ++ "·" ++ e.level ++ "·Zipf " ++ sz e.zipf])
    ∧ (∀ (n : Nat) (s : String), (jsTake n s).length ≤ n)
    ∧ (∀ (sz : Rat → String) (tier : Nat) (e : CleanEntry) (d : Enrichment),
        (∀ f ∈ [e.word, if e.pos == "" then "N/A" else e.pos, "", d.defn,
            jsTake 120 (e.ex.getD ""), joinSep ", " d.syn,
            "Tier" ++ toString tier ++ "·" ++ e.level ++ "·Zipf " ++ sz e.zipf],
          '\t' ∉ f.data) →
        splitOnChar '\t' (renderLine sz tier e d)
          = [e.word, if e.pos == "" then "N/A" else e.pos, "", d.defn,
             jsTake 120 (e.ex.getD ""), joinSep ", " d.syn,
             "Tier" ++ toString tier ++ "·" ++ e.level ++ "·Zipf " ++ sz e.zipf]) := by
  refine ⟨fun _ _ _ _ => rfl, ?_, ?_⟩
  · intro n s
    show (s.data.take n).length ≤ n
    rw [List.length_take]
    exact min_le_left n _
  · intro sz tier e d h
    exact splitOnChar_joinSep '\t' "\t" rfl _ (by simp) h

/-- C6 witness: the seven columns of a concrete rendered row. -/
theorem c6_deck_row_amended_witness :
    splitOnChar '\t' (renderLine (fun _ => "3.00") 1 c6Entry ⟨"a gift", ["x", "y"]⟩)
      = ["boon", "N/A", "", "a gift", "A boon to all.", "x, y",
         "Tier1·C1·Zipf 3.00"] := by
  have h := c6_deck_row_amended.2.2 (fun _ => "3.00") 1 c6Entry ⟨"a gift", ["x", "y"]⟩ (by decide)
  exact h.trans (by decide)
